import Mathlib

/-!
Verification development for the fixed-width constant-time big-integer
engine (`crypto-bigint`, file `src/uint.rs`).

The `Uint<LIMBS>` type is an ordered sequence of exactly `LIMBS` limbs,
least significant limb first, where a limb wraps one 64-bit machine word.
We embed limbs as naturals below `2 ^ 64` and `Uint LIMBS` as a list of
limbs of length `LIMBS`.  Functions whose bodies live in `uint.rs` are
translated directly; primitives that `uint.rs` merely calls into
(`limb.rs`, `from.rs`, `encoding.rs`, `div.rs`, `inv_mod.rs`,
`concat.rs`, `split.rs` are not part of the visible scaffolding) are
modelled from the specification and say so in their doc comments.
-/

namespace CryptoBigint

/-- Machine word: a 64-bit unsigned integer, embedded as a natural number
below `2 ^ 64`. -/
abbrev Word := { n : Nat // n < 2 ^ 64 }

/-- Limb: `repr(transparent)` newtype around a `Word`
(`Limb(pub Word)` in the source). -/
structure Limb where
  val : Word
deriving DecidableEq

/-- Number of bits per limb (64-bit target). -/
def Limb.BITS : Nat := 64

/-- Number of bytes per limb (64-bit target). -/
def Limb.BYTES : Nat := 8

/-- Build a word from a natural number, wrapping modulo `2 ^ 64`. -/
def Word.ofNat (n : Nat) : Word :=
  ⟨n % 2 ^ 64, Nat.mod_lt _ (by norm_num)⟩

/-- Build a limb from a natural number, wrapping modulo `2 ^ 64`. -/
def Limb.ofNat (n : Nat) : Limb :=
  ⟨Word.ofNat n⟩

/-- The zero limb. -/
def Limb.ZERO : Limb := Limb.ofNat 0

/-- The all-bits-set limb (`Limb::MAX`). -/
def Limb.MAX : Limb := ⟨⟨2 ^ 64 - 1, by norm_num⟩⟩

/-- A `subtle::Choice` is a boolean-like flag; we embed it as `Bool`. -/
abbrev Choice := Bool

/-- Bitmask corresponding to a choice: all ones for true, all zeros for
false. -/
def Limb.mask (c : Choice) : Nat :=
  if c then 2 ^ 64 - 1 else 0

theorem Limb.select_val (a b : Limb) (c : Choice) :
    a.val.val ^^^ (Limb.mask c &&& (a.val.val ^^^ b.val.val)) =
      if c then b.val.val else a.val.val := by
  cases c
  · simp [Limb.mask]
  · simp only [Limb.mask, if_true]
    rw [Nat.and_comm, Nat.and_pow_two_sub_one_eq_mod,
      Nat.mod_eq_of_lt (Nat.xor_lt_two_pow a.val.property b.val.property),
      ← Nat.xor_assoc, Nat.xor_self, Nat.zero_xor]

/-- Modelled from the spec: the limb-level constant-time
`conditional_select(a, b, choice)` (`limb.rs` is not part of the visible
scaffolding).  The spec requires selection "based on a boolean-like flag
without branching on the flag's runtime value", realised as the standard
unconditional bitmask select `a ^ (mask & (a ^ b))`. -/
def Limb.conditional_select (a b : Limb) (choice : Choice) : Limb :=
  ⟨⟨a.val.val ^^^ (Limb.mask choice &&& (a.val.val ^^^ b.val.val)), by
    rw [Limb.select_val]
    cases choice
    · simpa using a.val.property
    · simpa using b.val.property⟩⟩

theorem Limb.conditional_select_false (a b : Limb) :
    Limb.conditional_select a b false = a := by
  obtain ⟨⟨av, ah⟩⟩ := a
  obtain ⟨⟨bv, bh⟩⟩ := b
  simp [Limb.conditional_select, Limb.mask]

theorem Limb.conditional_select_true (a b : Limb) :
    Limb.conditional_select a b true = b := by
  obtain ⟨⟨av, ah⟩⟩ := a
  obtain ⟨⟨bv, bh⟩⟩ := b
  simp only [Limb.conditional_select, Limb.mask, if_true, Limb.mk.injEq,
    Subtype.mk.injEq]
  rw [Nat.and_comm, Nat.and_pow_two_sub_one_eq_mod,
    Nat.mod_eq_of_lt (Nat.xor_lt_two_pow ah bh),
    ← Nat.xor_assoc, Nat.xor_self, Nat.zero_xor]

/-- Modelled from the spec: the limb-level parity test `is_odd`
(`limb.rs` is not part of the visible scaffolding). -/
def Limb.is_odd (l : Limb) : Bool :=
  decide (l.val.val % 2 = 1)

/-- Big unsigned integer, generic over the number of limbs.  The inner
limb list is stored from least significant to most significant
(`Uint<LIMBS> { limbs: [Limb; LIMBS] }` in the source). -/
abbrev Uint (LIMBS : Nat) := { limbs : List Limb // limbs.length = LIMBS }

/-- Limb at position `i` (`self.limbs[i]`). -/
def Uint.limb {L : Nat} (x : Uint L) (i : Nat) (h : i < L) : Limb :=
  x.val.get ⟨i, by rw [x.property]; exact h⟩

/-- Modelled from the spec: construction "from a single small value
(zero-extended)" (`from.rs` is not part of the visible scaffolding).
The argument is a `u8`, hence reduced modulo 256. -/
def Uint.from_u8 (L : Nat) (n : Nat) : Uint L :=
  match L with
  | 0 => ⟨[], rfl⟩
  | Nat.succ K => ⟨Limb.ofNat (n % 256) :: List.replicate K Limb.ZERO, by simp⟩

/-- The value `0` (`Self::from_u8(0)` in the source). -/
def Uint.ZERO (L : Nat) : Uint L := Uint.from_u8 L 0

/-- The value `1` (`Self::from_u8(1)` in the source). -/
def Uint.ONE (L : Nat) : Uint L := Uint.from_u8 L 1

/-- Maximum value: every limb saturated (`[Limb::MAX; LIMBS]`). -/
def Uint.MAX (L : Nat) : Uint L :=
  ⟨List.replicate L Limb.MAX, by simp⟩

/-- Total size of the represented integer in bits
(`LIMBS * Limb::BITS`). -/
def Uint.BITS (L : Nat) : Nat := L * Limb.BITS

/-- Total size of the represented integer in bytes
(`LIMBS * Limb::BYTES`). -/
def Uint.BYTES (L : Nat) : Nat := L * Limb.BYTES

/-- Constant-time selection over the whole limb sequence: the limb-level
`conditional_select` is applied independently at every limb position
(the `for i in 0..LIMBS` loop of the `ConditionallySelectable` impl). -/
def Uint.conditional_select {L : Nat} (a b : Uint L) (choice : Choice) :
    Uint L :=
  ⟨List.zipWith (fun x y => Limb.conditional_select x y choice) a.val b.val,
    by rw [List.length_zipWith, a.property, b.property, Nat.min_self]⟩

/-- Parity test: delegate to the least-significant limb when there is
one, otherwise report even
(`self.limbs.first().map(|l| l.is_odd()).unwrap_or(Choice::from(0))`). -/
def Uint.is_odd {L : Nat} (x : Uint L) : Bool :=
  (x.val.head?.map Limb.is_odd).getD false

/-- Turn a word list into a limb list, one `Limb(w)` per word (the copy
loop of `from_words`). -/
def fromWordsList : List Word → List Limb
  | [] => []
  | w :: ws => Limb.mk w :: fromWordsList ws

/-- Turn a limb list into a word list, reading the inner word of each
limb (the copy loop of `to_words`). -/
def toWordsList : List Limb → List Word
  | [] => []
  | l :: ls => l.val :: toWordsList ls

theorem fromWordsList_length (ws : List Word) :
    (fromWordsList ws).length = ws.length := by
  induction ws with
  | nil => rfl
  | cons w ws ih => simp [fromWordsList, ih]

theorem toWordsList_length (ls : List Limb) :
    (toWordsList ls).length = ls.length := by
  induction ls with
  | nil => rfl
  | cons l ls ih => simp [toWordsList, ih]

/-- Fixed-length word array, mirror of `[Word; LIMBS]`. -/
abbrev Words (L : Nat) := { ws : List Word // ws.length = L }

/-- Create a `Uint` from an array of words (`from_words`). -/
def Uint.from_words {L : Nat} (arr : Words L) : Uint L :=
  ⟨fromWordsList arr.val, by rw [fromWordsList_length, arr.property]⟩

/-- Create an array of words from a `Uint` (`to_words`). -/
def Uint.to_words {L : Nat} (x : Uint L) : Words L :=
  ⟨toWordsList x.val, by rw [toWordsList_length, x.property]⟩

/-- Borrow the inner limbs as an array of words (`as_words`): the
layout-preserving reinterpretation of the limb array, i.e. the image of
the limb list under the transparent-newtype projection. -/
def Uint.as_words {L : Nat} (x : Uint L) : Words L :=
  ⟨x.val.map Limb.val, by rw [List.length_map, x.property]⟩

/-- Borrow the limbs of this `Uint` (`as_limbs`). -/
def Uint.as_limbs {L : Nat} (x : Uint L) : List Limb := x.val

/-- Convert this `Uint` into its inner limbs (`to_limbs`). -/
def Uint.to_limbs {L : Nat} (x : Uint L) : List Limb := x.val

theorem toWordsList_fromWordsList (ws : List Word) :
    toWordsList (fromWordsList ws) = ws := by
  induction ws with
  | nil => rfl
  | cons w ws ih => simp [fromWordsList, toWordsList, ih]

theorem toWordsList_eq_map (ls : List Limb) :
    toWordsList ls = ls.map Limb.val := by
  induction ls with
  | nil => rfl
  | cons l ls ih => simp [toWordsList, ih]

/-- First test value of the `conditional_select` unit test:
`U128` `0x00002222444466668888AAAACCCCEEEE`, least-significant limb
first. -/
def exampleA : Uint 2 :=
  ⟨[Limb.ofNat 0x8888AAAACCCCEEEE, Limb.ofNat 0x0000222244446666], rfl⟩

/-- Second test value of the `conditional_select` unit test:
`U128` `0x11113333555577779999BBBBDDDDFFFF`, least-significant limb
first. -/
def exampleB : Uint 2 :=
  ⟨[Limb.ofNat 0x9999BBBBDDDDFFFF, Limb.ofNat 0x1111333355557777], rfl⟩

/-- Claim C1: `Uint::conditional_select` applies the limb-level
`conditional_select` independently at every limb position; with a false
(0) choice it returns a value equal to the first operand and with a true
(1) choice a value equal to the second operand. -/
theorem claim1_conditional_select {L : Nat} (a b : Uint L) :
    (∀ (c : Choice) (i : Nat) (h : i < L),
      Uint.limb (Uint.conditional_select a b c) i h =
        Limb.conditional_select (Uint.limb a i h) (Uint.limb b i h) c) ∧
    Uint.conditional_select a b false = a ∧
    Uint.conditional_select a b true = b := by
  refine ⟨?_, ?_, ?_⟩
  · intro c i h
    simp [Uint.limb, Uint.conditional_select, List.getElem_zipWith]
  · apply Subtype.ext
    apply List.ext_getElem
    · simp [Uint.conditional_select, a.property, b.property]
    · intro i h1 h2
      simp [Uint.conditional_select, List.getElem_zipWith,
        Limb.conditional_select_false]
  · apply Subtype.ext
    apply List.ext_getElem
    · simp [Uint.conditional_select, a.property, b.property]
    · intro i h1 h2
      simp [Uint.conditional_select, List.getElem_zipWith,
        Limb.conditional_select_true]

/-- Witness for claim C1 at the concrete 128-bit test vectors and limb
position 1. -/
theorem claim1_conditional_select_witness :
    Uint.limb (Uint.conditional_select exampleA exampleB true) 1
        one_lt_two =
      Limb.conditional_select (Uint.limb exampleA 1 one_lt_two)
        (Uint.limb exampleB 1 one_lt_two) true ∧
    Uint.conditional_select exampleA exampleB false = exampleA := by
  exact ⟨(claim1_conditional_select exampleA exampleB).1 true 1 one_lt_two,
    (claim1_conditional_select exampleA exampleB).2.1⟩

/-- Claim C4: the derived constants of `Uint<L>`: `ZERO` has all limbs
zero, `ONE` has least-significant limb 1 and all other limbs zero, `MAX`
has every limb saturated, `BITS = L * Limb::BITS` and
`BYTES = BITS / 8`. -/
theorem claim4_constants (L : Nat) :
    (∀ (i : Nat) (h : i < L), Uint.limb (Uint.ZERO L) i h = Limb.ZERO) ∧
    (∀ (i : Nat) (h : i < L),
      Uint.limb (Uint.ONE L) i h = if i = 0 then Limb.ofNat 1 else Limb.ZERO) ∧
    (∀ (i : Nat) (h : i < L), Uint.limb (Uint.MAX L) i h = Limb.MAX) ∧
    Uint.BITS L = L * Limb.BITS ∧
    Uint.BYTES L = Uint.BITS L / 8 := by
  refine ⟨?_, ?_, ?_, rfl, ?_⟩
  · intro i h
    match L, h with
    | Nat.succ K, _ =>
      match i with
      | 0 => rfl
      | Nat.succ j =>
        simp [Uint.limb, Uint.ZERO, Uint.from_u8]
  · intro i h
    match L, h with
    | Nat.succ K, _ =>
      match i with
      | 0 => rfl
      | Nat.succ j =>
        simp [Uint.limb, Uint.ONE, Uint.from_u8]
  · intro i h
    simp [Uint.limb, Uint.MAX]
  · simp only [Uint.BYTES, Uint.BITS, Limb.BITS, Limb.BYTES]
    omega

/-- Witness for claim C4 at limb count 2 and limb position 1. -/
theorem claim4_constants_witness :
    Uint.limb (Uint.ONE 2) 1 one_lt_two = Limb.ZERO := by
  have h := (claim4_constants 2).2.1 1 one_lt_two
  simpa using h

/-- Claim C8: `is_odd` returns the parity of the least-significant limb
(equivalently, of the represented value), and on the degenerate
zero-limb type it always returns false. -/
theorem claim8_is_odd {L : Nat} (x : Uint L) :
    (∀ h : 0 < L, Uint.is_odd x = Limb.is_odd (Uint.limb x 0 h)) ∧
    (L = 0 → Uint.is_odd x = false) := by
  obtain ⟨l, hl⟩ := x
  constructor
  · intro h
    match l, hl with
    | a :: rest, _ => rfl
    | [], hl => simp at hl; omega
  · intro h0
    match l, hl with
    | [], _ => rfl
    | a :: rest, hl => simp at hl; omega

/-- Witness for claim C8: the first test vector (an even value, two
limbs) and the empty zero-limb value. -/
theorem claim8_is_odd_witness :
    Uint.is_odd exampleA = Limb.is_odd (Uint.limb exampleA 0 two_pos) ∧
    Uint.is_odd (⟨[], rfl⟩ : Uint 0) = false := by
  exact ⟨(claim8_is_odd exampleA).1 two_pos,
    (claim8_is_odd (⟨[], rfl⟩ : Uint 0)).2 rfl⟩

/-- Claim C10: `to_words` inverts `from_words`, and the borrowed views
agree with the converting accessors: `as_words = to_words` and
`as_limbs = to_limbs`. -/
theorem claim10_word_views {L : Nat} (arr : Words L) (x : Uint L) :
    Uint.to_words (Uint.from_words arr) = arr ∧
    Uint.as_words x = Uint.to_words x ∧
    Uint.as_limbs x = Uint.to_limbs x := by
  refine ⟨?_, ?_, rfl⟩
  · apply Subtype.ext
    exact toWordsList_fromWordsList arr.val
  · apply Subtype.ext
    exact (toWordsList_eq_map x.val).symm

/-- Value denoted by a limb list: `Σ limb[i] * (2 ^ 64) ^ i`. -/
def limbsToNat (ls : List Limb) : Nat :=
  ls.foldr (fun l acc => l.val.val + 2 ^ 64 * acc) 0

/-- Value represented by a `Uint` (the data-model denotation
`Σ limb[i] * BASE ^ i`). -/
def Uint.toNat {L : Nat} (x : Uint L) : Nat :=
  limbsToNat x.val

/-- Little-endian base-`2 ^ 64` digits of a natural number, fixed length. -/
def natToLimbs : Nat → Nat → List Limb
  | 0, _ => []
  | Nat.succ K, n => Limb.ofNat n :: natToLimbs K (n / 2 ^ 64)

theorem natToLimbs_length (L n : Nat) : (natToLimbs L n).length = L := by
  induction L generalizing n with
  | zero => rfl
  | succ K ih => simp [natToLimbs, ih]

/-- Build a `Uint` holding `n` modulo `2 ^ BITS` (little-endian
base-`2 ^ 64` digits). -/
def Uint.ofNat (L n : Nat) : Uint L :=
  ⟨natToLimbs L n, natToLimbs_length L n⟩

theorem Limb.ofNat_val (n : Nat) : (Limb.ofNat n).val.val = n % 2 ^ 64 :=
  rfl

theorem limbsToNat_natToLimbs (L n : Nat) :
    limbsToNat (natToLimbs L n) = n % (2 ^ 64) ^ L := by
  induction L generalizing n with
  | zero => simp [natToLimbs, limbsToNat, Nat.mod_one]
  | succ K ih =>
    simp only [natToLimbs, limbsToNat, List.foldr_cons]
    have h1 : limbsToNat (natToLimbs K (n / 2 ^ 64)) =
        (n / 2 ^ 64) % (2 ^ 64) ^ K := ih (n / 2 ^ 64)
    simp only [limbsToNat] at h1
    have hp : ((2 : Nat) ^ 64) ^ (K + 1) = 2 ^ 64 * ((2 : Nat) ^ 64) ^ K :=
      pow_succ' _ _
    rw [h1, Limb.ofNat_val, hp, Nat.mod_mul]

theorem limbsToNat_lt (ls : List Limb) :
    limbsToNat ls < (2 ^ 64) ^ ls.length := by
  induction ls with
  | nil => simp [limbsToNat]
  | cons a rest ih =>
    simp only [limbsToNat, List.foldr_cons, List.length_cons, pow_succ']
    have ha := a.val.property
    have hstep : a.val.val + 2 ^ 64 * limbsToNat rest <
        2 ^ 64 * (limbsToNat rest + 1) := by
      simp only [limbsToNat] at *
      omega
    calc a.val.val + 2 ^ 64 * List.foldr
          (fun l acc => l.val.val + 2 ^ 64 * acc) 0 rest
        < 2 ^ 64 * (limbsToNat rest + 1) := hstep
      _ ≤ 2 ^ 64 * (2 ^ 64) ^ rest.length :=
          Nat.mul_le_mul_left _ ih

theorem Uint.toNat_lt {L : Nat} (x : Uint L) :
    Uint.toNat x < (2 ^ 64) ^ L := by
  have h := limbsToNat_lt x.val
  rw [x.property] at h
  exact h

theorem Uint.toNat_ofNat (L n : Nat) :
    Uint.toNat (Uint.ofNat L n) = n % (2 ^ 64) ^ L :=
  limbsToNat_natToLimbs L n

theorem natToLimbs_limbsToNat (ls : List Limb) :
    natToLimbs ls.length (limbsToNat ls) = ls := by
  induction ls with
  | nil => rfl
  | cons a rest ih =>
    simp only [List.length_cons, natToLimbs, limbsToNat, List.foldr_cons,
      List.cons.injEq]
    have ha := a.val.property
    constructor
    · obtain ⟨⟨av, hav⟩⟩ := a
      simp only [Limb.ofNat, Word.ofNat, Limb.mk.injEq, Subtype.mk.injEq]
      rw [Nat.add_mul_mod_self_left, Nat.mod_eq_of_lt hav]
    · have hd : (a.val.val + 2 ^ 64 * limbsToNat rest) / 2 ^ 64 =
          limbsToNat rest := by
        rw [Nat.add_mul_div_left _ _ (by norm_num : 0 < 2 ^ 64),
          Nat.div_eq_of_lt ha, Nat.zero_add]
      simp only [limbsToNat] at hd
      rw [hd]
      exact ih

theorem Uint.ofNat_toNat {L : Nat} (x : Uint L) :
    Uint.ofNat L (Uint.toNat x) = x := by
  apply Subtype.ext
  have h := natToLimbs_limbsToNat x.val
  rw [x.property] at h
  exact h

theorem natToLimbs_zero (L : Nat) :
    natToLimbs L 0 = List.replicate L Limb.ZERO := by
  induction L with
  | zero => rfl
  | succ K ih =>
    simp only [natToLimbs, Nat.zero_div, ih, List.replicate_succ]
    rfl

theorem Uint.ofNat_one {L : Nat} (h : 0 < L) :
    Uint.ofNat L 1 = Uint.ONE L := by
  apply Subtype.ext
  match L, h with
  | Nat.succ K, _ =>
    simp only [Uint.ofNat, natToLimbs, Uint.ONE, Uint.from_u8]
    rw [Nat.div_eq_of_lt (by norm_num), natToLimbs_zero]

/-- Modelled from the spec: division with remainder (`div.rs` is not
part of the visible scaffolding).  Produces a quotient and remainder of
the dividend's width; a zero divisor fails deterministically with a
dedicated signal, embedded as `none` (mirroring a `CtOption` whose
`is_some` flag is 0). -/
def Uint.div_rem {L : Nat} (a b : Uint L) : Option (Uint L × Uint L) :=
  if Uint.toNat b = 0 then none
  else some (Uint.ofNat L (Uint.toNat a / Uint.toNat b),
    Uint.ofNat L (Uint.toNat a % Uint.toNat b))

/-- Claim C5: for a nonzero divisor, division returns quotient and
remainder of the dividend's width with `a = b * q + r` and `r < b`; a
zero divisor fails deterministically with the dedicated signal. -/
theorem claim5_div_rem {L : Nat} (a b : Uint L) :
    (Uint.toNat b ≠ 0 →
      ∃ q r : Uint L, Uint.div_rem a b = some (q, r) ∧
        Uint.toNat a = Uint.toNat b * Uint.toNat q + Uint.toNat r ∧
        Uint.toNat r < Uint.toNat b) ∧
    (Uint.toNat b = 0 → Uint.div_rem a b = none) := by
  constructor
  · intro hb
    refine ⟨Uint.ofNat L (Uint.toNat a / Uint.toNat b),
      Uint.ofNat L (Uint.toNat a % Uint.toNat b), ?_, ?_, ?_⟩
    · simp [Uint.div_rem, hb]
    · rw [Uint.toNat_ofNat, Uint.toNat_ofNat,
        Nat.mod_eq_of_lt (lt_of_le_of_lt (Nat.div_le_self _ _)
          (Uint.toNat_lt a)),
        Nat.mod_eq_of_lt (lt_trans (Nat.mod_lt _ (Nat.pos_of_ne_zero hb))
          (Uint.toNat_lt b))]
      exact (Nat.div_add_mod (Uint.toNat a) (Uint.toNat b)).symm
    · rw [Uint.toNat_ofNat,
        Nat.mod_eq_of_lt (lt_trans (Nat.mod_lt _ (Nat.pos_of_ne_zero hb))
          (Uint.toNat_lt b))]
      exact Nat.mod_lt _ (Nat.pos_of_ne_zero hb)
  · intro hb
    simp [Uint.div_rem, hb]

/-- Witness for claim C5: 7 divided by 3 in a one-limb integer, and a
zero divisor. -/
theorem claim5_div_rem_witness :
    (Uint.toNat (Uint.ofNat 1 3) ≠ 0 ∧
      ∃ q r : Uint 1,
        Uint.div_rem (Uint.ofNat 1 7) (Uint.ofNat 1 3) = some (q, r) ∧
        Uint.toNat (Uint.ofNat 1 7) =
          Uint.toNat (Uint.ofNat 1 3) * Uint.toNat q + Uint.toNat r ∧
        Uint.toNat r < Uint.toNat (Uint.ofNat 1 3)) ∧
    Uint.div_rem (Uint.ofNat 1 7) (Uint.ZERO 1) = none := by
  refine ⟨⟨by decide, (claim5_div_rem (Uint.ofNat 1 7) (Uint.ofNat 1 3)).1
    (by decide)⟩, (claim5_div_rem (Uint.ofNat 1 7) (Uint.ZERO 1)).2
    (by decide)⟩

/-- Modelled from the spec: modular multiplication `mul_mod(a, b, m)`
computes the full double-width product and reduces it modulo `m`
(`mul_mod.rs` is not part of the visible scaffolding). -/
def Uint.mul_mod {L : Nat} (a b m : Uint L) : Uint L :=
  Uint.ofNat L ((Uint.toNat a * Uint.toNat b) % Uint.toNat m)

/-- Extended-Euclid inverse candidate of `a` modulo `m` at the value
level, reduced into `[0, m)`. -/
def invNat (a m : Nat) : Nat :=
  (Nat.gcdA a m % (m : Int)).toNat

/-- Modelled from the spec: `inv_mod(a, m)` computes the modular inverse
when `gcd(a, m) = 1` and signals non-invertibility through an explicit
validity flag otherwise (`inv_mod.rs` is not part of the visible
scaffolding). -/
def Uint.inv_mod {L : Nat} (a m : Uint L) : Uint L × Bool :=
  if Nat.gcd (Uint.toNat a) (Uint.toNat m) = 1 then
    (Uint.ofNat L (invNat (Uint.toNat a) (Uint.toNat m)), true)
  else (Uint.ZERO L, false)

theorem invNat_lt (a m : Nat) (hm : 0 < m) : invNat a m < m := by
  have hmz : (m : Int) ≠ 0 := by exact_mod_cast hm.ne'
  have h1 : Nat.gcdA a m % (m : Int) < m :=
    Int.emod_lt_of_pos _ (by exact_mod_cast hm)
  have h2 : 0 ≤ Nat.gcdA a m % (m : Int) := Int.emod_nonneg _ hmz
  unfold invNat
  omega

theorem invNat_mul (a m : Nat) (hm : 0 < m) (h : Nat.gcd a m = 1) :
    a * invNat a m % m = 1 % m := by
  have hmz : (m : Int) ≠ 0 := by exact_mod_cast hm.ne'
  have hinv : ((invNat a m : Nat) : Int) = Nat.gcdA a m % (m : Int) :=
    Int.toNat_of_nonneg (Int.emod_nonneg _ hmz)
  have hab := Nat.gcd_eq_gcd_ab a m
  rw [h] at hab
  have hsub : (a : Int) * Nat.gcdA a m = 1 - m * Nat.gcdB a m := by
    push_cast at hab
    linarith
  have hkey : ((a : Int) * Nat.gcdA a m) % m = 1 % m := by
    rw [hsub, Int.sub_emod, Int.mul_emod_right, sub_zero,
      Int.emod_emod_of_dvd _ dvd_rfl]
  have hcast : ((a * invNat a m % m : Nat) : Int) = ((1 % m : Nat) : Int) := by
    push_cast
    rw [hinv, Int.mul_emod, Int.emod_emod_of_dvd _ dvd_rfl, ← Int.mul_emod,
      hkey]
  exact_mod_cast hcast

/-- Counterexample to claim C6 as stated: with the one-limb modulus
`m = 1` and `a = 0` (coprime to `m`, since `gcd 0 1 = 1`), the product
of `a` with its reported inverse reduces to `0`, not to the `Uint`
value `1`. -/
theorem claim6_counterexample :
    Nat.gcd (Uint.toNat (Uint.ZERO 1)) (Uint.toNat (Uint.ONE 1)) = 1 ∧
    ¬ Uint.mul_mod (Uint.ZERO 1)
        (Uint.inv_mod (Uint.ZERO 1) (Uint.ONE 1)).1 (Uint.ONE 1) =
      Uint.ONE 1 := by
  constructor
  · decide
  · intro hEq
    have h2 : Uint.mul_mod (Uint.ZERO 1)
        (Uint.inv_mod (Uint.ZERO 1) (Uint.ONE 1)).1 (Uint.ONE 1) =
        Uint.ofNat 1 0 := by
      unfold Uint.mul_mod
      have h0 : Uint.toNat (Uint.ZERO 1) = 0 := by decide
      rw [h0, Nat.zero_mul, Nat.zero_mod]
    rw [h2] at hEq
    exact absurd hEq (by decide)

/-- Claim C6 (amended: the modulus must exceed 1): for `m` of value at
least 2 and `a` coprime to `m`, `inv_mod` reports validity and
`mul_mod(a, inv_mod(a, m), m) = 1`; for `a` not coprime to `m`, the
validity flag is false. -/
theorem claim6_inv_mod {L : Nat} (a m : Uint L) :
    (2 ≤ Uint.toNat m → Nat.gcd (Uint.toNat a) (Uint.toNat m) = 1 →
      (Uint.inv_mod a m).2 = true ∧
      Uint.mul_mod a (Uint.inv_mod a m).1 m = Uint.ONE L) ∧
    (Nat.gcd (Uint.toNat a) (Uint.toNat m) ≠ 1 →
      (Uint.inv_mod a m).2 = false) := by
  constructor
  · intro hm2 hg
    have hm : 0 < Uint.toNat m := by omega
    have hmlt := Uint.toNat_lt m
    have hL : 0 < L := by
      rcases Nat.eq_zero_or_pos L with h0 | h1
      · exfalso
        have hone : ((2 : Nat) ^ 64) ^ L = 1 := by rw [h0]; rfl
        omega
      · exact h1
    constructor
    · simp [Uint.inv_mod, hg]
    · simp only [Uint.inv_mod, hg, if_true, Uint.mul_mod]
      rw [Uint.toNat_ofNat,
        Nat.mod_eq_of_lt (lt_trans (invNat_lt _ _ hm) hmlt),
        invNat_mul _ _ hm hg, Nat.mod_eq_of_lt (by omega : 1 < Uint.toNat m)]
      exact Uint.ofNat_one hL
  · intro hg
    simp [Uint.inv_mod, hg]

/-- Witness for the amended claim C6: inverse of 3 modulo 5 in a
one-limb integer, and the non-invertible pair 2 modulo 4. -/
theorem claim6_inv_mod_witness :
    ((Uint.inv_mod (Uint.ofNat 1 3) (Uint.ofNat 1 5)).2 = true ∧
      Uint.mul_mod (Uint.ofNat 1 3)
        (Uint.inv_mod (Uint.ofNat 1 3) (Uint.ofNat 1 5)).1
        (Uint.ofNat 1 5) = Uint.ONE 1) ∧
    (Uint.inv_mod (Uint.ofNat 1 2) (Uint.ofNat 1 4)).2 = false := by
  refine ⟨(claim6_inv_mod (Uint.ofNat 1 3) (Uint.ofNat 1 5)).1
    (by decide) (by decide),
    (claim6_inv_mod (Uint.ofNat 1 2) (Uint.ofNat 1 4)).2 (by decide)⟩

/-- Little-endian bytes of a natural number, fixed length `k`. -/
def natLEBytes : Nat → Nat → List Nat
  | 0, _ => []
  | Nat.succ k, n => n % 256 :: natLEBytes k (n / 256)

/-- Value of a little-endian byte list. -/
def bytesToNatLE (bs : List Nat) : Nat :=
  bs.foldr (fun b acc => b + 256 * acc) 0

theorem natLEBytes_length (k n : Nat) : (natLEBytes k n).length = k := by
  induction k generalizing n with
  | zero => rfl
  | succ j ih => simp [natLEBytes, ih]

theorem natLEBytes_lt (k n : Nat) : ∀ b ∈ natLEBytes k n, b < 256 := by
  induction k generalizing n with
  | zero => simp [natLEBytes]
  | succ j ih =>
    intro b hb
    simp only [natLEBytes, List.mem_cons] at hb
    rcases hb with h | h
    · subst h
      exact Nat.mod_lt _ (by norm_num)
    · exact ih _ b h

theorem bytesToNatLE_natLEBytes (k n : Nat) :
    bytesToNatLE (natLEBytes k n) = n % 256 ^ k := by
  induction k generalizing n with
  | zero => simp [natLEBytes, bytesToNatLE, Nat.mod_one]
  | succ j ih =>
    simp only [natLEBytes, bytesToNatLE, List.foldr_cons]
    have h1 := ih (n / 256)
    simp only [bytesToNatLE] at h1
    have hp : (256 : Nat) ^ (j + 1) = 256 * 256 ^ j := pow_succ' _ _
    rw [h1, hp, Nat.mod_mul]

/-- Modelled from the spec: serialize this integer as a little-endian
fixed-size byte array of length `BYTES` (`encoding.rs` is not part of
the visible scaffolding).  Limbs are emitted least significant first,
each as eight little-endian bytes. -/
def Uint.to_le_bytes {L : Nat} (x : Uint L) : List Nat :=
  (x.val.map (fun l => natLEBytes 8 l.val.val)).flatten

/-- Modelled from the spec: serialize this integer as a big-endian
fixed-size byte array of length `BYTES`: the reversal of the
little-endian encoding. -/
def Uint.to_be_bytes {L : Nat} (x : Uint L) : List Nat :=
  (Uint.to_le_bytes x).reverse

/-- Decode a little-endian byte sequence into limbs, eight bytes per
limb. -/
def limbsFromLEBytes : Nat → List Nat → List Limb
  | 0, _ => []
  | Nat.succ K, bs =>
      Limb.ofNat (bytesToNatLE (bs.take 8)) :: limbsFromLEBytes K (bs.drop 8)

theorem limbsFromLEBytes_length (K : Nat) (bs : List Nat) :
    (limbsFromLEBytes K bs).length = K := by
  induction K generalizing bs with
  | zero => rfl
  | succ J ih => simp [limbsFromLEBytes, ih]

/-- Modelled from the spec: deserialize a little-endian byte array
(`encoding.rs` is not part of the visible scaffolding). -/
def Uint.from_le_bytes (L : Nat) (bs : List Nat) : Uint L :=
  ⟨limbsFromLEBytes L bs, limbsFromLEBytes_length L bs⟩

/-- Modelled from the spec: deserialize a big-endian byte array: decode
its reversal as little-endian. -/
def Uint.from_be_bytes (L : Nat) (bs : List Nat) : Uint L :=
  Uint.from_le_bytes L bs.reverse

theorem limbsFromLEBytes_roundtrip (ls : List Limb) :
    limbsFromLEBytes ls.length
      ((ls.map (fun l => natLEBytes 8 l.val.val)).flatten) = ls := by
  induction ls with
  | nil => rfl
  | cons a rest ih =>
    simp only [List.length_cons, List.map_cons, List.flatten_cons,
      limbsFromLEBytes, List.cons.injEq]
    have hlen : (natLEBytes 8 a.val.val).length = 8 := natLEBytes_length _ _
    have ht : (natLEBytes 8 a.val.val ++
        (rest.map (fun l => natLEBytes 8 l.val.val)).flatten).take 8 =
        natLEBytes 8 a.val.val := List.take_left' hlen
    have hd : (natLEBytes 8 a.val.val ++
        (rest.map (fun l => natLEBytes 8 l.val.val)).flatten).drop 8 =
        (rest.map (fun l => natLEBytes 8 l.val.val)).flatten :=
      List.drop_left' hlen
    refine ⟨?_, by rw [hd]; exact ih⟩
    rw [ht, bytesToNatLE_natLEBytes]
    have h256 : (256 : Nat) ^ 8 = 2 ^ 64 := by norm_num
    obtain ⟨⟨av, hav⟩⟩ := a
    simp only [Limb.ofNat, Word.ofNat, Limb.mk.injEq, Subtype.mk.injEq]
    rw [h256, Nat.mod_eq_of_lt hav, Nat.mod_eq_of_lt hav]

theorem toLEBytesList_length (ls : List Limb) :
    ((ls.map (fun l => natLEBytes 8 l.val.val)).flatten).length =
      ls.length * 8 := by
  induction ls with
  | nil => rfl
  | cons a rest ih =>
    simp only [List.map_cons, List.flatten_cons, List.length_append,
      natLEBytes_length, List.length_cons, ih]
    ring

/-- Hexadecimal digit characters, upper or lower case. -/
def hexDigitChar (upper : Bool) (n : Nat) : Char :=
  match n with
  | 0 => '0'
  | 1 => '1'
  | 2 => '2'
  | 3 => '3'
  | 4 => '4'
  | 5 => '5'
  | 6 => '6'
  | 7 => '7'
  | 8 => '8'
  | 9 => '9'
  | 10 => if upper then 'A' else 'a'
  | 11 => if upper then 'B' else 'b'
  | 12 => if upper then 'C' else 'c'
  | 13 => if upper then 'D' else 'd'
  | 14 => if upper then 'E' else 'e'
  | 15 => if upper then 'F' else 'f'
  | _ => '0'

/-- Numeric value of a hexadecimal digit character (0 for anything
else). -/
def hexCharVal (c : Char) : Nat :=
  match c with
  | '0' => 0
  | '1' => 1
  | '2' => 2
  | '3' => 3
  | '4' => 4
  | '5' => 5
  | '6' => 6
  | '7' => 7
  | '8' => 8
  | '9' => 9
  | 'A' => 10
  | 'B' => 11
  | 'C' => 12
  | 'D' => 13
  | 'E' => 14
  | 'F' => 15
  | 'a' => 10
  | 'b' => 11
  | 'c' => 12
  | 'd' => 13
  | 'e' => 14
  | 'f' => 15
  | _ => 0

theorem hexCharVal_hexDigitChar (u : Bool) (n : Nat) (h : n < 16) :
    hexCharVal (hexDigitChar u n) = n := by
  interval_cases n <;> cases u <;> rfl

/-- Little-endian base-16 digits of a natural number, fixed length. -/
def nibsLE : Nat → Nat → List Nat
  | 0, _ => []
  | Nat.succ k, n => n % 16 :: nibsLE k (n / 16)

theorem nibsLE_length (k n : Nat) : (nibsLE k n).length = k := by
  induction k generalizing n with
  | zero => rfl
  | succ j ih => simp [nibsLE, ih]

/-- Value of a most-significant-first hexadecimal digit string. -/
def hexVal (cs : List Char) : Nat :=
  cs.foldl (fun acc c => 16 * acc + hexCharVal c) 0

theorem hexVal_foldl_from (cs : List Char) (a : Nat) :
    cs.foldl (fun acc c => 16 * acc + hexCharVal c) a =
      a * 16 ^ cs.length + hexVal cs := by
  induction cs generalizing a with
  | nil => simp [hexVal]
  | cons c rest ih =>
    simp only [List.foldl_cons, List.length_cons, hexVal] at *
    rw [ih (16 * a + hexCharVal c), ih (16 * 0 + hexCharVal c)]
    ring

theorem hexVal_append (l1 l2 : List Char) :
    hexVal (l1 ++ l2) = hexVal l1 * 16 ^ l2.length + hexVal l2 := by
  simp only [hexVal, List.foldl_append]
  exact hexVal_foldl_from l2 _

/-- Modelled from the spec: per-limb hexadecimal formatting, sixteen
digits, most significant first (the `fmt::LowerHex` / `fmt::UpperHex`
impls of `Limb` are not part of the visible scaffolding; the spec fixes
the text length at `2 * BYTES`, hence zero-padded fixed-width limbs). -/
def Limb.toHex (upper : Bool) (l : Limb) : List Char :=
  ((nibsLE 16 l.val.val).reverse).map (hexDigitChar upper)

theorem Limb.toHex_length (u : Bool) (l : Limb) :
    (Limb.toHex u l).length = 16 := by
  simp [Limb.toHex, nibsLE_length]

theorem hexVal_nibsLE (u : Bool) (k n : Nat) :
    hexVal ((nibsLE k n).reverse.map (hexDigitChar u)) = n % 16 ^ k := by
  induction k generalizing n with
  | zero => simp [nibsLE, hexVal, Nat.mod_one]
  | succ j ih =>
    simp only [nibsLE, List.reverse_cons, List.map_append, List.map_cons,
      List.map_nil]
    rw [hexVal_append]
    have h1 := ih (n / 16)
    have h2 : hexVal [hexDigitChar u (n % 16)] = n % 16 := by
      simp only [hexVal, List.foldl_cons, List.foldl_nil, Nat.mul_zero,
        Nat.zero_add]
      exact hexCharVal_hexDigitChar u _ (Nat.mod_lt _ (by norm_num))
    rw [h1, h2]
    have hp : (16 : Nat) ^ (j + 1) = 16 * 16 ^ j := pow_succ' _ _
    rw [hp, Nat.mod_mul]
    simp only [List.length_cons, List.length_nil, pow_one]
    ring

theorem hexVal_limbToHex (u : Bool) (l : Limb) :
    hexVal (Limb.toHex u l) = l.val.val := by
  rw [Limb.toHex, hexVal_nibsLE]
  have h16 : (16 : Nat) ^ 16 = 2 ^ 64 := by norm_num
  rw [h16, Nat.mod_eq_of_lt l.val.property]

/-- Hexadecimal rendering of the whole integer: iterate the limbs in
reverse (most significant first) and hex-format each limb (the loop of
the `fmt::LowerHex` / `fmt::UpperHex` impls of `Uint`). -/
def Uint.toHexChars (upper : Bool) {L : Nat} (x : Uint L) : List Char :=
  (x.val.reverse.map (Limb.toHex upper)).flatten

/-- Upper-case hexadecimal rendering (`fmt::UpperHex` for `Uint`). -/
def Uint.toHexUpper {L : Nat} (x : Uint L) : String :=
  ⟨Uint.toHexChars true x⟩

/-- Lower-case hexadecimal rendering (`fmt::LowerHex` for `Uint`). -/
def Uint.toHexLower {L : Nat} (x : Uint L) : String :=
  ⟨Uint.toHexChars false x⟩

/-- Display rendering: delegates to `fmt::UpperHex`
(`fmt::Display` for `Uint`). -/
def Uint.display {L : Nat} (x : Uint L) : String :=
  Uint.toHexUpper x

theorem hexVal_limbsHex (u : Bool) (ls : List Limb) :
    hexVal ((ls.reverse.map (Limb.toHex u)).flatten) = limbsToNat ls := by
  induction ls with
  | nil => rfl
  | cons a rest ih =>
    simp only [List.reverse_cons, List.map_append, List.map_cons,
      List.map_nil, List.flatten_append, List.flatten_cons,
      List.flatten_nil, List.append_nil]
    rw [hexVal_append, ih, hexVal_limbToHex, Limb.toHex_length]
    simp only [limbsToNat, List.foldr_cons]
    have h16 : (16 : Nat) ^ 16 = 2 ^ 64 := by norm_num
    rw [h16]
    ring

theorem toHexChars_length (u : Bool) {L : Nat} (x : Uint L) :
    (Uint.toHexChars u x).length = L * 16 := by
  have h : ∀ ls : List Limb,
      ((ls.map (Limb.toHex u)).flatten).length = ls.length * 16 := by
    intro ls
    induction ls with
    | nil => rfl
    | cons a rest ih =>
      simp only [List.map_cons, List.flatten_cons, List.length_append,
        Limb.toHex_length, List.length_cons, ih]
      ring
  rw [Uint.toHexChars, h, List.length_reverse, x.property]

/-- Modelled from the spec: construction of a constant from
most-significant-first hexadecimal text (`from_be_hex`;
`encoding.rs` is not part of the visible scaffolding). -/
def Uint.from_be_hex (L : Nat) (s : String) : Uint L :=
  Uint.ofNat L (hexVal s.data)

theorem to_le_bytes_lt {L : Nat} (x : Uint L) :
    ∀ b ∈ Uint.to_le_bytes x, b < 256 := by
  intro b hb
  simp only [Uint.to_le_bytes, List.mem_flatten, List.mem_map] at hb
  obtain ⟨bs, ⟨l, hl, rfl⟩, hbbs⟩ := hb
  exact natLEBytes_lt 8 _ b hbbs

/-- Claim C2: decoding the big-endian, little-endian or hexadecimal
encoding of any value returns the original value, and each byte
encoding has exactly `BYTES` bytes. -/
theorem claim2_encoding_roundtrip {L : Nat} (x : Uint L) :
    Uint.from_be_bytes L (Uint.to_be_bytes x) = x ∧
    Uint.from_le_bytes L (Uint.to_le_bytes x) = x ∧
    Uint.from_be_hex L (Uint.toHexUpper x) = x ∧
    Uint.from_be_hex L (Uint.toHexLower x) = x ∧
    (Uint.to_be_bytes x).length = Uint.BYTES L ∧
    (Uint.to_le_bytes x).length = Uint.BYTES L := by
  have hle : Uint.from_le_bytes L (Uint.to_le_bytes x) = x := by
    apply Subtype.ext
    have h := limbsFromLEBytes_roundtrip x.val
    rw [x.property] at h
    exact h
  have hlen : (Uint.to_le_bytes x).length = Uint.BYTES L := by
    have h := toLEBytesList_length x.val
    rw [x.property] at h
    simp only [Uint.to_le_bytes, Uint.BYTES, Limb.BYTES]
    exact h
  have hhex : ∀ u : Bool,
      Uint.from_be_hex L ⟨Uint.toHexChars u x⟩ = x := by
    intro u
    show Uint.ofNat L (hexVal (Uint.toHexChars u x)) = x
    have h := hexVal_limbsHex u x.val
    rw [Uint.toHexChars, h]
    exact Uint.ofNat_toNat x
  refine ⟨?_, hle, hhex true, hhex false, ?_, hlen⟩
  · show Uint.from_le_bytes L (Uint.to_le_bytes x).reverse.reverse = x
    rw [List.reverse_reverse]
    exact hle
  · rw [Uint.to_be_bytes, List.length_reverse]
    exact hlen

/-- The `U128` value `0xAAAAAAAABBBBBBBBCCCCCCCCDDDDDDDD` of the spec's
concrete scenario, least-significant limb first. -/
def u128Example : Uint 2 :=
  ⟨[Limb.ofNat 0xCCCCCCCCDDDDDDDD, Limb.ofNat 0xAAAAAAAABBBBBBBB], rfl⟩

/-- Claim C7: the hexadecimal renderings format the limbs most
significant first into text of length `2 * BYTES`; `Display` uses upper
hex; and the concrete `U128` scenario value renders in upper hex as its
own digit string. -/
theorem claim7_hex_format {L : Nat} (x : Uint L) :
    Uint.display x = Uint.toHexUpper x ∧
    (Uint.toHexUpper x).length = 2 * Uint.BYTES L ∧
    (Uint.toHexLower x).length = 2 * Uint.BYTES L ∧
    Uint.toHexUpper u128Example = "AAAAAAAABBBBBBBBCCCCCCCCDDDDDDDD" := by
  have hlen : ∀ u : Bool,
      (String.mk (Uint.toHexChars u x)).length = 2 * Uint.BYTES L := by
    intro u
    show (Uint.toHexChars u x).length = 2 * Uint.BYTES L
    rw [toHexChars_length]
    simp only [Uint.BYTES, Limb.BYTES]
    ring
  exact ⟨rfl, hlen true, hlen false, by decide⟩

/-- Serialized form produced for the structured-serialization
collaborator: either compact binary or hexadecimal text. -/
inductive Serialized where
  | bin (bytes : List Nat)
  | hex (text : String)
deriving DecidableEq

/-- Representation selected by the serialization collaborator. -/
inductive SerdeFormat where
  | binary
  | hexLower
deriving DecidableEq

/-- Hexadecimal text of a byte sequence, two digits per byte, high
nibble first. -/
def bytesToHexChars (u : Bool) (bs : List Nat) : List Char :=
  (bs.map (fun b => [hexDigitChar u (b / 16), hexDigitChar u (b % 16)])).flatten

/-- Parse hexadecimal text back into bytes, two digits per byte. -/
def hexPairsToBytes : List Char → List Nat
  | c1 :: c2 :: rest => (16 * hexCharVal c1 + hexCharVal c2) :: hexPairsToBytes rest
  | _ => []

/-- Serialization (the `Serialize` impl): hand the little-endian byte
encoding to the collaborator, which renders it either as compact binary
or as lower-hex text (`serdect::array::serialize_hex_lower_or_bin`,
modelled from the spec: serdect is an external collaborator). -/
def Uint.serialize {L : Nat} (fmt : SerdeFormat) (x : Uint L) : Serialized :=
  match fmt with
  | SerdeFormat.binary => Serialized.bin (Uint.to_le_bytes x)
  | SerdeFormat.hexLower =>
      Serialized.hex ⟨bytesToHexChars false (Uint.to_le_bytes x)⟩

/-- Deserialization (the `Deserialize` impl): accept either
representation, recover the little-endian byte buffer and decode it
(`serdect::array::deserialize_hex_or_bin` followed by
`from_le_bytes`, the collaborator modelled from the spec). -/
def Uint.deserialize (L : Nat) (d : Serialized) : Uint L :=
  match d with
  | Serialized.bin bs => Uint.from_le_bytes L bs
  | Serialized.hex s => Uint.from_le_bytes L (hexPairsToBytes s.data)

theorem hexPairsToBytes_bytesToHexChars (u : Bool) (bs : List Nat)
    (h : ∀ b ∈ bs, b < 256) :
    hexPairsToBytes (bytesToHexChars u bs) = bs := by
  induction bs with
  | nil => rfl
  | cons b rest ih =>
    have hb : b < 256 := h b (List.mem_cons_self b rest)
    have hrest : ∀ c ∈ rest, c < 256 := fun c hc => h c (List.mem_cons_of_mem b hc)
    simp only [bytesToHexChars, List.map_cons, List.flatten_cons,
      List.cons_append, List.nil_append]
    show (16 * hexCharVal (hexDigitChar u (b / 16)) +
        hexCharVal (hexDigitChar u (b % 16))) ::
        hexPairsToBytes ((rest.map _).flatten) = b :: rest
    rw [hexCharVal_hexDigitChar u _ (by omega),
      hexCharVal_hexDigitChar u _ (by omega)]
    have hrt := ih hrest
    simp only [bytesToHexChars] at hrt
    rw [hrt]
    congr 1
    omega

/-- Claim C9: deserializing the serialized form, in either the compact
binary or the hexadecimal textual representation, yields a value equal
to the original. -/
theorem claim9_serde_roundtrip {L : Nat} (fmt : SerdeFormat) (x : Uint L) :
    Uint.deserialize L (Uint.serialize fmt x) = x := by
  have hle : Uint.from_le_bytes L (Uint.to_le_bytes x) = x := by
    apply Subtype.ext
    have h := limbsFromLEBytes_roundtrip x.val
    rw [x.property] at h
    exact h
  cases fmt
  · exact hle
  · show Uint.from_le_bytes L
        (hexPairsToBytes (bytesToHexChars false (Uint.to_le_bytes x))) = x
    rw [hexPairsToBytes_bytesToHexChars false _ (to_le_bytes_lt x)]
    exact hle

/-- Modelled from the spec: `concat(high, low)` produces a value of
twice the width whose low `W` bits equal `low` and whose high `W` bits
equal `high` (`concat.rs` is not part of the visible scaffolding).
With limbs stored least significant first this is the limb sequence of
`low` followed by that of `high`. -/
def Uint.concat {L : Nat} (hi lo : Uint L) : Uint (L + L) :=
  ⟨lo.val ++ hi.val, by rw [List.length_append, lo.property, hi.property]⟩

/-- Modelled from the spec: `split(x)` produces the pair
`(high, low)` of half-width values with `concat(high, low) = x`
(`split.rs` is not part of the visible scaffolding). -/
def Uint.split {L : Nat} (x : Uint (L + L)) : Uint L × Uint L :=
  (⟨x.val.drop L, by rw [List.length_drop, x.property]; omega⟩,
   ⟨x.val.take L, by rw [List.length_take, x.property]; omega⟩)

/-- Bit widths of the `impl_uint_aliases!` table (64-bit target). -/
def uintAliasBits : List Nat :=
  [64, 128, 192, 256, 320, 384, 448, 512, 576, 640, 768, 896, 1024,
   1280, 1536, 1792, 2048, 3072, 3584, 4096, 6144, 8192]

/-- Bit widths of the `impl_concat!` table: the only widths whose alias
implements `Concat`. -/
def concatBits : List Nat :=
  [64, 128, 192, 256, 320, 384, 448, 512, 640, 768, 896, 1024, 1536,
   1792, 2048, 3072, 4096]

/-- Bit widths of the `impl_split!` table: the only widths whose alias
implements `Split`. -/
def splitBits : List Nat :=
  [128, 256, 384, 512, 640, 768, 896, 1024, 1280, 1536, 1792, 2048,
   3072, 3584, 4096, 6144, 8192]

/-- Claim C3: `split` and `concat` are exact inverses of one another,
and they are provided only for the fixed enumerated width tables, not
for every limb count: the split table is exactly the doubling of the
concat table, and some alias widths (64 for split, 8192 for concat) are
absent from the tables. -/
theorem claim3_concat_split :
    (∀ (L : Nat) (hi lo : Uint L), Uint.split (Uint.concat hi lo) = (hi, lo)) ∧
    (∀ (L : Nat) (x : Uint (L + L)),
      Uint.concat (Uint.split x).1 (Uint.split x).2 = x) ∧
    splitBits = concatBits.map (fun b => 2 * b) ∧
    (8192 ∈ uintAliasBits ∧ 8192 ∉ concatBits) ∧
    (64 ∈ uintAliasBits ∧ 64 ∉ splitBits) := by
  refine ⟨?_, ?_, by decide, by decide, by decide⟩
  · intro L hi lo
    have h1 : (Uint.split (Uint.concat hi lo)).1 = hi := by
      apply Subtype.ext
      show (lo.val ++ hi.val).drop L = hi.val
      exact List.drop_left' lo.property
    have h2 : (Uint.split (Uint.concat hi lo)).2 = lo := by
      apply Subtype.ext
      show (lo.val ++ hi.val).take L = lo.val
      exact List.take_left' lo.property
    rw [Prod.ext_iff]
    exact ⟨h1, h2⟩
  · intro L x
    apply Subtype.ext
    show x.val.take L ++ x.val.drop L = x.val
    exact List.take_append_drop L x.val

end CryptoBigint
